import Mathlib

/-!
Verification of the path-rewriting core of a small rsync-based project
synchronizer.  Text is modelled as `List Char` (Python `str`), dictionaries
with possibly-missing keys as structures with `Option` fields, and fallible
code as `Except String`.  Each definition carries a note naming the source
function it embeds.
-/

namespace SyncModel

/-- Python `str.replace(pat, rep)` for a non-empty pattern `p :: ps`:
scan left to right, replacing each non-overlapping occurrence. -/
def replaceAllNe (p : Char) (ps rep : List Char) : List Char → List Char
  | [] => []
  | c :: rest =>
    if (p :: ps).isPrefixOf (c :: rest) then
      rep ++ replaceAllNe p ps rep (rest.drop ps.length)
    else
      c :: replaceAllNe p ps rep rest
termination_by s => s.length
decreasing_by
  · simp only [List.length_drop, List.length_cons]
    omega
  · simp only [List.length_cons]
    omega

/-- Python `str.replace(pat, rep)`.  An empty pattern inserts `rep` before and
after every character, matching CPython semantics. -/
def replaceAll (pat rep s : List Char) : List Char :=
  match pat with
  | [] => rep ++ s.foldr (fun c acc => c :: rep ++ acc) []
  | p :: ps => replaceAllNe p ps rep s

/-- One entry of `config["rewrite_rules"]` in `src/src/sync.py`: a JSON object
whose `server`/`mac` keys may each be absent. -/
structure RewriteRule where
  server : Option (List Char)
  mac : Option (List Char)
deriving DecidableEq, Repr

/-- `rule.get(source_key, "")` in `iter_rules` (`src/src/sync.py`), where
`source_key` is `"server"` for direction `server_to_mac` and `"mac"` for
`mac_to_server`. -/
def srcKey (d : String) (r : RewriteRule) : List Char :=
  if d = "server_to_mac" then r.server.getD [] else r.mac.getD []

/-- `rule.get(target_key, "")` in `iter_rules` (`src/src/sync.py`). -/
def tgtKey (d : String) (r : RewriteRule) : List Char :=
  if d = "server_to_mac" then r.mac.getD [] else r.server.getD []

/-- The loop body of `iter_rules`: skip rules with an empty source, an empty
target, or source equal to target; otherwise yield `(source, target)`. -/
def keepRule (d : String) (r : RewriteRule) : Option (List Char × List Char) :=
  let s := srcKey d r
  let t := tgtKey d r
  if s = [] ∨ t = [] ∨ s = t then none else some (s, t)

/-- The keep condition of `keepRule` as a Boolean test. -/
def keepB (d : String) (r : RewriteRule) : Bool :=
  !(srcKey d r == [] || tgtKey d r == [] || srcKey d r == tgtKey d r)

/-- The pair a kept rule yields. -/
def selRule (d : String) (r : RewriteRule) : List Char × List Char :=
  (srcKey d r, tgtKey d r)

/-- Insert into a list sorted by `key` descending, before the first element
whose key is not larger; together with `sortDescBy` this reproduces the
stable descending order of Python `sorted(rules, key=..., reverse=True)`. -/
def insertDescBy {α : Type} (key : α → Nat) (x : α) : List α → List α
  | [] => [x]
  | y :: ys => if key y ≤ key x then x :: y :: ys else y :: insertDescBy key x ys

/-- Stable insertion sort, descending by `key`: the model of Python
`sorted(rules, key=lambda item: len(item.get(source_key, "")), reverse=True)`
in `iter_rules` (`src/src/sync.py`). -/
def sortDescBy {α : Type} (key : α → Nat) : List α → List α
  | [] => []
  | x :: xs => insertDescBy key x (sortDescBy key xs)

/-- `iter_rules` from `src/src/sync.py`: raise `ValueError` on an unknown
direction, else sort by source length descending (stable) and yield the
filtered `(source, target)` pairs. -/
def iter_rules (rules : List RewriteRule) (d : String) :
    Except String (List (List Char × List Char)) :=
  if d = "server_to_mac" ∨ d = "mac_to_server" then
    .ok ((sortDescBy (fun r => (srcKey d r).length) rules).filterMap (keepRule d))
  else
    .error ("Unknown direction: " ++ d)

/-- The fold inside `apply_rewrites`: apply each `(source, target)` pair as a
literal replacement over the running result. -/
def applyPairs (prs : List (List Char × List Char)) (x : List Char) : List Char :=
  prs.foldl (fun acc q => replaceAll q.1 q.2 acc) x

/-- `apply_rewrites` from `src/src/sync.py`: fold `str.replace` over the pairs
produced by `iter_rules`; an unknown direction surfaces as the `ValueError`
raised while iterating. -/
def apply_rewrites (text : List Char) (rules : List RewriteRule) (d : String) :
    Except String (List Char) :=
  (iter_rules rules d).map (fun prs => applyPairs prs text)

/-! The legacy implementation at the repository root (`src/sync.py`) rewrites
with `re.sub(re.escape(old_path), new_path, result)`.  `re.escape` makes the
pattern match literally, so matching coincides with `replaceAll`; the
replacement string, however, is passed to `re.sub` unescaped and is therefore
processed as a regex replacement template.  `decodeTemplate` models that
processing.  Group references and octal escapes (a backslash followed by a
digit, or by the letter g) are collapsed to errors here: the escaped pattern
contains no groups, so in CPython every group reference fails too, and no
claim exercises octal escapes. -/

/-- Value of a known replacement-template letter escape in CPython `re`. -/
def templEsc (c : Char) : Option Char :=
  if c = 'n' then some (Char.ofNat 10)
  else if c = 't' then some (Char.ofNat 9)
  else if c = 'r' then some (Char.ofNat 13)
  else if c = 'a' then some (Char.ofNat 7)
  else if c = 'b' then some (Char.ofNat 8)
  else if c = 'f' then some (Char.ofNat 12)
  else if c = 'v' then some (Char.ofNat 11)
  else none

/-- CPython processing of a `re.sub` replacement template: a doubled
backslash collapses to one, known letter escapes become control characters,
other letter or digit or g-escapes are errors, any other escape keeps both
characters, and a trailing backslash is an error. -/
def decodeTemplate : List Char → Except String (List Char)
  | [] => .ok []
  | ['\\'] => .error "bad escape (end of pattern)"
  | '\\' :: e :: rest =>
    if e = '\\' then (decodeTemplate rest).map (fun t => '\\' :: t)
    else
      match templEsc e with
      | some v => (decodeTemplate rest).map (fun t => v :: t)
      | none =>
        if e.isDigit ∨ e = 'g' then .error "invalid group reference"
        else if e.isAlpha then .error "bad escape"
        else (decodeTemplate rest).map (fun t => '\\' :: e :: t)
  | c :: cs => (decodeTemplate cs).map (fun t => c :: t)

/-- `transform_jsonl_content` from the legacy `src/sync.py`: fold
`re.sub(re.escape(old), new, result)` over the replacement pairs.  Matching is
literal thanks to `re.escape`; the replacement goes through the template
decoder. -/
def transform_jsonl_content (content : List Char)
    (replacements : List (List Char × List Char)) : Except String (List Char) :=
  replacements.foldlM
    (fun res q => (decodeTemplate q.2).map (fun tpl => replaceAll q.1 tpl res))
    content

/-- One side (`server` or `macos`) of `config["paths"]` in the legacy
`src/sync.py` schema. -/
structure OldSidePaths where
  temp_escaped : List Char
  temp_base : List Char
  claude_projects : List Char
deriving DecidableEq, Repr

/-- `config["paths"]` in the legacy schema. -/
structure OldPaths where
  server : OldSidePaths
  macos : OldSidePaths
deriving DecidableEq, Repr

/-- One entry of `config["projects"]` in the legacy schema, with its `sync`
direction field and `enabled` flag (`project.get("enabled", True)`). -/
structure OldProject where
  name : String
  server_dir : String
  macos_dir : String
  sync : String
  enabled : Bool
deriving DecidableEq, Repr

/-- The legacy configuration object. -/
structure OldConfig where
  ssh_alias : String
  paths : OldPaths
  projects : List OldProject
deriving DecidableEq, Repr

/-- `build_replacements` from the legacy `src/sync.py`: a fixed-order pair
list selected by direction (escaped temp paths, then temp base, then the
projects root). -/
def build_replacements (cfg : OldConfig) (direction : String) :
    List (List Char × List Char) :=
  if direction = "server-to-mac" then
    [(cfg.paths.server.temp_escaped, cfg.paths.macos.temp_escaped),
     (cfg.paths.server.temp_base, cfg.paths.macos.temp_base),
     (cfg.paths.server.claude_projects, cfg.paths.macos.claude_projects)]
  else
    [(cfg.paths.macos.temp_escaped, cfg.paths.server.temp_escaped),
     (cfg.paths.macos.temp_base, cfg.paths.server.temp_base),
     (cfg.paths.macos.claude_projects, cfg.paths.server.claude_projects)]

/-- Python `str.lower()` over the basic latin range (the only characters the
confirmation answers use). -/
def strLower (s : String) : String :=
  ⟨s.data.map Char.toLower⟩

/-- Python `str.strip()`: drop whitespace from both ends. -/
def strStrip (s : String) : String :=
  ⟨(((s.data.dropWhile (fun c => c.isWhitespace)).reverse.dropWhile
      (fun c => c.isWhitespace)).reverse)⟩

/-- One invocation of the external transfer primitive (`rsync` via
`run_cmd`/`subprocess.run`).  The flag and path arguments are orchestration
glue and are abstracted to the call's role in the operation. -/
inductive TransferCall where
  | stage : TransferCall
  | finalize : TransferCall
deriving DecidableEq, Repr

/-- The ambient effects a sync operation consumes: the interactive
confirmation answer, whether the project's local directory exists, the
`.jsonl` files found in the staging directory after the staging transfer
(`none` marks a file whose bytes do not decode as UTF-8), and whether the
n-th issued transfer command exits with status 0. -/
structure Env where
  userInput : String
  macPathExists : Bool
  stagedFiles : List (Option (List Char))
  cmdOk : Nat → Bool

/-- The per-file transform loop shared by `sync_pull` and `sync_push` in the
legacy `src/sync.py`: read each staged file (an undecodable file raises an
uncaught `UnicodeDecodeError`) and run `transform_jsonl_content`. -/
def oldTransformAll (files : List (Option (List Char)))
    (reps : List (List Char × List Char)) : Except String (List (List Char)) :=
  files.mapM (fun f =>
    match f with
    | none => .error "UnicodeDecodeError"
    | some c => transform_jsonl_content c reps)

/-- `sync_push` from the legacy `src/sync.py`: a read-only
(`sync == "server-to-mac"`) project prompts and is cancelled unless the
answer lowercases to `yes`; otherwise the push proceeds through staging,
transformation and the final transfer. -/
def sync_push (cfg : OldConfig) (p : OldProject) (env : Env) :
    Except String Unit × List TransferCall :=
  if p.sync = "server-to-mac" ∧ strLower env.userInput ≠ "yes" then
    (.ok (), [])
  else
    if ¬ env.cmdOk 0 then (.error "CalledProcessError", [.stage])
    else
      match oldTransformAll env.stagedFiles (build_replacements cfg "mac-to-server") with
      | .error e => (.error e, [.stage])
      | .ok _ =>
        if ¬ env.cmdOk 1 then (.error "rsync failed", [.stage, .finalize])
        else (.ok (), [.stage, .finalize])

/-! ### Configuration model for `src/src/sync.py`

JSON objects with possibly-missing keys are structures of `Option` fields.
Error messages are abbreviated relative to the Python originals (which quote
the offending values); no claim depends on message text. -/

/-- `config["paths"]` in `src/src/sync.py`, whose `macos_root` and
`server_root` keys may be absent. -/
structure PathsCfg where
  macos_root : Option String
  server_root : Option String
deriving DecidableEq, Repr

/-- One entry of `config["projects"]` in `src/src/sync.py`; every key may be
absent. -/
structure ProjectCfg where
  name : Option String
  server_dir : Option String
  macos_dir : Option String
  mode : Option String
deriving DecidableEq, Repr

/-- The configuration object of `src/src/sync.py`; top-level keys may be
absent, and `rewrite_rules` is read with `config.get("rewrite_rules", [])`. -/
structure Config where
  ssh_alias : Option String
  paths : Option PathsCfg
  projects : Option (List ProjectCfg)
  rewrite_rules : Option (List RewriteRule)
deriving DecidableEq, Repr

/-- `project.get("mode", "pull")`, the mode lookup used by every operation in
`src/src/sync.py`. -/
def modeOf (p : ProjectCfg) : String :=
  p.mode.getD "pull"

/-- `project["name"]` after presence has been established (missing names only
reach this through contexts the claims do not exercise). -/
def nameOf (p : ProjectCfg) : String :=
  p.name.getD ""

/-- `VALID_MODES` from `src/src/sync.py`. -/
def validModes : List String := ["pull", "push", "both"]

/-- The body of the project loop in `validate_config`: required keys in
order, then the mode check, then the duplicate-name check; on success the
name joins the seen set. -/
def checkProject (p : ProjectCfg) (seen : List String) :
    Except String (List String) :=
  if p.name.isNone then .error "Project entry is missing required key"
  else if p.server_dir.isNone then .error "Project entry is missing required key"
  else if p.macos_dir.isNone then .error "Project entry is missing required key"
  else if ¬ modeOf p ∈ validModes then .error "Invalid mode. Use pull, push or both."
  else if nameOf p ∈ seen then .error "Duplicate project name."
  else .ok (seen ++ [nameOf p])

/-- The project loop of `validate_config`, threading the seen-name set. -/
def checkProjects : List ProjectCfg → List String → Except String Unit
  | [], _ => .ok ()
  | p :: ps, seen =>
    match checkProject p seen with
    | .error e => .error e
    | .ok seen2 => checkProjects ps seen2

/-- The rewrite-rule loop of `validate_config`: each entry must have both the
`server` and the `mac` key present (emptiness is not checked). -/
def checkRules : List RewriteRule → Except String Unit
  | [] => .ok ()
  | r :: rs =>
    if r.server.isNone ∨ r.mac.isNone then
      .error "rewrite_rules entries require server and mac"
    else checkRules rs

/-- `validate_config` from `src/src/sync.py`, with its checks in source
order: top-level keys, path keys, non-empty project list, per-project checks,
rewrite-rule key presence. -/
def validate_config (cfg : Config) : Except String Unit :=
  if cfg.ssh_alias.isNone then .error "Missing top-level key ssh_alias in config."
  else if cfg.paths.isNone then .error "Missing top-level key paths in config."
  else if cfg.projects.isNone then .error "Missing top-level key projects in config."
  else if (cfg.paths.getD ⟨none, none⟩).macos_root.isNone then
    .error "Missing paths.macos_root in config."
  else if (cfg.paths.getD ⟨none, none⟩).server_root.isNone then
    .error "Missing paths.server_root in config."
  else if cfg.projects.getD [] = [] then
    .error "config.projects must contain at least one project."
  else
    match checkProjects (cfg.projects.getD []) [] with
    | .error e => .error e
    | .ok _ => checkRules (cfg.rewrite_rules.getD [])

/-! ### File walker (`rewrite_jsonl_files`, `src/src/sync.py`)

The directory tree is modelled as the list of `*.jsonl` files that
`root.rglob` enumerates, in order; a file is `none` when its bytes raise
`UnicodeDecodeError` under `read_text`.  A trace of read and write events
records which files the walk touches. -/

/-- A filesystem access performed by the walker on the i-th enumerated file. -/
inductive FsEvent where
  | read : Nat → FsEvent
  | write : Nat → FsEvent
deriving DecidableEq, Repr

/-- The loop of `rewrite_jsonl_files` over the remaining files, carrying the
index of the next file: an undecodable file logs its attempted read, is
skipped and not counted; a decodable file is rewritten, written back only
when changed, and counted. -/
def rewriteGo (rules : List RewriteRule) (d : String) :
    Nat → List (Option (List Char)) →
    Except String (List (Option (List Char)) × Nat × List FsEvent)
  | _, [] => .ok ([], 0, [])
  | i, f :: fs =>
    match f with
    | none =>
      (rewriteGo rules d (i + 1) fs).map
        (fun r => (none :: r.1, r.2.1, .read i :: r.2.2))
    | some c =>
      match apply_rewrites c rules d with
      | .error e => .error e
      | .ok t =>
        (rewriteGo rules d (i + 1) fs).map
          (fun r =>
            if t ≠ c then (some t :: r.1, r.2.1 + 1, .read i :: .write i :: r.2.2)
            else (some c :: r.1, r.2.1 + 1, .read i :: r.2.2))

/-- `rewrite_jsonl_files` from `src/src/sync.py`: with no rules it returns 0
before touching the tree; otherwise it walks every file, skipping
undecodable ones, and returns the final contents, the count of decoded
files, and the access trace. -/
def rewrite_jsonl_files (files : List (Option (List Char)))
    (rules : List RewriteRule) (d : String) :
    Except String (List (Option (List Char)) × Nat × List FsEvent) :=
  if rules.isEmpty then .ok (files, 0, [])
  else rewriteGo rules d 0 files

/-! ### Sync orchestrator (`src/src/sync.py`) -/

/-- `pull_project` from `src/src/sync.py`: the mode gate, then the staging
transfer, the rewrite pass over the staged files, and the finalizing
transfer.  Directory creation, temp-dir naming and cleanup carry no claim
content and are omitted; transfer commands are recorded in issue order. -/
def pull_project (cfg : Config) (p : ProjectCfg) (env : Env) :
    Except String Unit × List TransferCall :=
  if ¬ (modeOf p = "pull" ∨ modeOf p = "both") then
    (.error "Project is configured as push-only.", [])
  else if ¬ env.cmdOk 0 then (.error "Command failed", [.stage])
  else
    match rewrite_jsonl_files env.stagedFiles (cfg.rewrite_rules.getD []) "server_to_mac" with
    | .error e => (.error e, [.stage])
    | .ok _ =>
      if ¬ env.cmdOk 1 then (.error "Command failed", [.stage, .finalize])
      else (.ok (), [.stage, .finalize])

/-- `push_project` from `src/src/sync.py`: the mode gate first, then the
confirmation prompt (skipped when `confirm` is false or `dry_run` is true; a
negative answer cancels without error), the local-directory check, and the
staged transfer pipeline. -/
def push_project (cfg : Config) (p : ProjectCfg) (confirm dryRun : Bool)
    (env : Env) : Except String Unit × List TransferCall :=
  if ¬ (modeOf p = "push" ∨ modeOf p = "both") then
    (.error "Project is configured as pull-only.", [])
  else if confirm ∧ ¬ dryRun ∧ ¬ (strLower (strStrip env.userInput) = "y" ∨
      strLower (strStrip env.userInput) = "yes") then
    (.ok (), [])
  else if ¬ env.macPathExists then
    (.error "Local directory not found", [])
  else if ¬ env.cmdOk 0 then (.error "Command failed", [.stage])
  else
    match rewrite_jsonl_files env.stagedFiles (cfg.rewrite_rules.getD []) "mac_to_server" with
    | .error e => (.error e, [.stage])
    | .ok _ =>
      if ¬ env.cmdOk 1 then (.error "Command failed", [.stage, .finalize])
      else (.ok (), [.stage, .finalize])

/-- The projects `sync_all` pulls: those whose mode (defaulted to `pull`) is
`pull` or `both`. -/
def pullTargets (cfg : Config) : List ProjectCfg :=
  (cfg.projects.getD []).filter (fun p => modeOf p = "pull" ∨ modeOf p = "both")

/-- The projects `sync_all` pushes when `--include-push` is set: those whose
mode is `both`. -/
def pushTargets (cfg : Config) : List ProjectCfg :=
  (cfg.projects.getD []).filter (fun p => modeOf p = "both")

/-- The pull loop of `sync_all`: attempt each eligible project through the
given outcome of `pull_project` and collect `(name, message)` for each
failure. -/
def pullFailures (projects : List ProjectCfg)
    (pullO : ProjectCfg → Except String Unit) : List (String × String) :=
  projects.foldl
    (fun acc p =>
      if modeOf p = "pull" ∨ modeOf p = "both" then
        match pullO p with
        | .ok _ => acc
        | .error e => acc ++ [(nameOf p, e)]
      else acc)
    []

/-- The optional push loop of `sync_all` over bidirectional projects. -/
def pushFailures (projects : List ProjectCfg)
    (pushO : ProjectCfg → Except String Unit) : List (String × String) :=
  projects.foldl
    (fun acc p =>
      if modeOf p = "both" then
        match pushO p with
        | .ok _ => acc
        | .error e => acc ++ [(nameOf p, e)]
      else acc)
    []

/-- `sync_all` from `src/src/sync.py`, with the per-project transfers
abstracted into outcome oracles `pullO`/`pushO` (each models one
`pull_project`/`push_project` invocation, whose every exception the loop
catches): pull every pull/both project, optionally push every both project,
and raise at the end exactly when some project failed. -/
def sync_all (cfg : Config) (includePush : Bool)
    (pullO pushO : ProjectCfg → Except String Unit) :
    List (String × String) × Except String Unit :=
  let fails := pullFailures (cfg.projects.getD []) pullO
  let fails := if includePush then fails ++ pushFailures (cfg.projects.getD []) pushO
    else fails
  (fails, if fails.isEmpty then .ok () else .error "sync-all failed for one or more projects.")

/-! ### Round-trip parse structure

The round-trip law holds for texts that decompose into literal chunks and
whole-rule occurrences such that, at each replacement pass, the pass's
pattern occurs exactly at its designated segments — the formal reading of
"no rewritten substring collides with another rule's pattern" and "text not
previously rewritten".  All predicates are decidable, so a concrete text and
parse can be checked by evaluation. -/

/-- One segment of a parsed text: content `u` before the pass sequence,
content `v` after it, and the index `k` of the pass that rewrites it
(`none` for a literal chunk, where `u = v`). -/
structure Seg where
  u : List Char
  v : List Char
  k : Option Nat
deriving DecidableEq, Repr

/-- The content a segment shows before pass `i` runs: already-rewritten
segments show `v`, the rest still show `u`. -/
def segAt (i : Nat) (s : Seg) : List Char :=
  match s.k with
  | some j => if j < i then s.v else s.u
  | none => s.u

/-- The whole text before pass `i` runs. -/
def renderAt (i : Nat) (P : List Seg) : List Char :=
  P.foldr (fun s acc => segAt i s ++ acc) []

/-- No occurrence of `p` straddles the junction between `a` and `b`: no way
to split `p` into a non-empty proper prefix that ends `a` and a remainder
that starts `b`. -/
def NoStraddle (a b p : List Char) : Prop :=
  ∀ k, k < p.length → 0 < k → ¬ (p.take k <:+ a ∧ p.drop k <+: b)

instance (a b p : List Char) : Decidable (NoStraddle a b p) :=
  inferInstanceAs (Decidable (∀ k, k < p.length → 0 < k →
    ¬ (p.take k <:+ a ∧ p.drop k <+: b)))

/-- The text rendered from a marked segmentation (contents with a flag
marking the segments a pass is about to replace). -/
def renderMarked (segs : List (List Char × Bool)) : List Char :=
  segs.foldr (fun s acc => s.1 ++ acc) []

/-- The text after the pass: marked segments become `rep`. -/
def renderOut (rep : List Char) (segs : List (List Char × Bool)) : List Char :=
  segs.foldr (fun s acc => (if s.2 then rep else s.1) ++ acc) []

/-- A single replacement pass with pattern `pat` is exact on a marked
segmentation: marked segments are whole occurrences of `pat`, and `pat`
neither occurs inside an unmarked segment nor straddles a junction. -/
def PassOk (pat : List Char) : List (List Char × Bool) → Prop
  | [] => True
  | s :: rest =>
    (s.2 = true → s.1 = pat) ∧
    (s.2 = false → ¬ pat <:+: s.1 ∧ NoStraddle s.1 (renderMarked rest) pat) ∧
    PassOk pat rest

instance instPassOkDec (pat : List Char) :
    (segs : List (List Char × Bool)) → Decidable (PassOk pat segs)
  | [] => .isTrue True.intro
  | s :: rest =>
    haveI : Decidable (PassOk pat rest) := instPassOkDec pat rest
    inferInstanceAs (Decidable ((s.2 = true → s.1 = pat) ∧
      (s.2 = false → ¬ pat <:+: s.1 ∧ NoStraddle s.1 (renderMarked rest) pat) ∧
      PassOk pat rest))

/-- A segment is consistent with the pass list `Q`: a literal chunk never
changes, and a segment rewritten at pass `j` is exactly the `j`-th pair. -/
def segOk (Q : List (List Char × List Char)) (s : Seg) : Prop :=
  match s.k with
  | none => s.u = s.v
  | some j => Q.get? j = some (s.u, s.v)

instance (Q : List (List Char × List Char)) (s : Seg) : Decidable (segOk Q s) :=
  match h : s.k with
  | none => decidable_of_iff (s.u = s.v) (by simp [segOk, h])
  | some j => decidable_of_iff (Q.get? j = some (s.u, s.v)) (by simp [segOk, h])

/-- The pattern of pass `i`. -/
def patAt (Q : List (List Char × List Char)) (i : Nat) : List Char :=
  ((Q.get? i).getD ([], [])).1

/-- A parse of a text against the ordered pass list `Q`: every segment is
consistent with `Q`, and every pass is exact on the segmentation it sees. -/
def ParseOk (Q : List (List Char × List Char)) (P : List Seg) : Prop :=
  (∀ s ∈ P, segOk Q s) ∧
  ∀ i, i < Q.length →
    PassOk (patAt Q i) (P.map (fun s => (segAt i s, s.k == some i)))

instance (Q : List (List Char × List Char)) (P : List Seg) :
    Decidable (ParseOk Q P) :=
  inferInstanceAs (Decidable ((∀ s ∈ P, segOk Q s) ∧
    ∀ i, i < Q.length →
      PassOk (patAt Q i) (P.map (fun s => (segAt i s, s.k == some i)))))

/-! ### Concrete data

The rule set of `tests/test_rewrites.py`, given in scrambled order so the
sort is exercised, together with a sample text and its parses for the
round-trip law, and small configurations for the remaining claims. -/

def exS1 : List Char := "/home/user/.claude/projects".toList

def exT1 : List Char := "/Users/user/.claude/projects".toList

def exS2 : List Char := "-var-tmp-vibe".toList

def exT2 : List Char := "-private-var-folders-vibe".toList

def exS3 : List Char := "-var-tmp".toList

def exT3 : List Char := "-private-var".toList

/-- The test suite's rule set, listed shortest-first. -/
def exRules : List RewriteRule :=
  [⟨some exS3, some exT3⟩, ⟨some exS1, some exT1⟩, ⟨some exS2, some exT2⟩]

/-- The pairs `iter_rules` yields on `exRules` for `server_to_mac`. -/
def exQfwd : List (List Char × List Char) := [(exS1, exT1), (exS2, exT2), (exS3, exT3)]

/-- The pairs `iter_rules` yields on `exRules` for `mac_to_server`. -/
def exQbwd : List (List Char × List Char) := [(exT1, exS1), (exT2, exS2), (exT3, exS3)]

/-- A server-side sample line containing all three server forms. -/
def exText : List Char :=
  "/home/user/.claude/projects/-var-tmp-vibe-kanban link:-var-tmp".toList

/-- The literal chunk between the second and third rule occurrence. -/
def exMid : List Char := "-kanban link:".toList

/-- Parse of `exText` for the forward (server-to-mac) pass sequence. -/
def exPfwd : List Seg :=
  [⟨exS1, exT1, some 0⟩, ⟨['/'], ['/'], none⟩, ⟨exS2, exT2, some 1⟩,
   ⟨exMid, exMid, none⟩, ⟨exS3, exT3, some 2⟩]

/-- Parse of the rewritten text for the backward (mac-to-server) pass
sequence. -/
def exPbwd : List Seg :=
  [⟨exT1, exS1, some 0⟩, ⟨['/'], ['/'], none⟩, ⟨exT2, exS2, some 1⟩,
   ⟨exMid, exMid, none⟩, ⟨exT3, exS3, some 2⟩]

/-- A configuration that is valid in every respect except that one rewrite
rule has an empty (but present) `server` side. -/
def exCfgEmptySide : Config :=
  { ssh_alias := some "server"
  , paths := some ⟨some "/Users/u/.claude/projects", some "/home/u/.claude/projects"⟩
  , projects := some [⟨some "proj", some "a", some "b", some "pull"⟩]
  , rewrite_rules := some [⟨some [], some ['x']⟩] }

/-- A legacy-schema project configured read-only (pull-only). -/
def exOldProject : OldProject := ⟨"memory", "srv", "mac", "server-to-mac", true⟩

/-- A legacy-schema configuration holding `exOldProject`. -/
def exOldConfig : OldConfig :=
  ⟨"server",
   ⟨⟨exS2, "/var/tmp".toList, "/home/u/.claude/projects".toList⟩,
    ⟨exT2, "/private/var".toList, "/Users/u/.claude/projects".toList⟩⟩,
   [exOldProject]⟩

/-- An environment whose confirmation answer is `yes` and whose transfers
all succeed. -/
def exEnvYes : Env := ⟨"yes", true, [], fun _ => true⟩

/-- A project entry whose `mode` key is absent. -/
def exProjNoMode : ProjectCfg := ⟨some "p1", some "s", some "m", none⟩

/-- A small valid configuration containing `exProjNoMode`. -/
def exCfg9 : Config := ⟨some "srv", some ⟨some "mr", some "sr"⟩, some [exProjNoMode], some []⟩

/-! ### Lemmas about literal replacement -/

/-- Bridge from the executable prefix test to the prefix relation. -/
theorem isPrefixOfIff {l₁ l₂ : List Char} : l₁.isPrefixOf l₂ = true ↔ l₁ <+: l₂ :=
  List.isPrefixOf_iff_prefix

theorem replaceAllNe_nil (p : Char) (ps rep : List Char) :
    replaceAllNe p ps rep [] = [] := by
  simp [replaceAllNe]

/-- A replacement pass consumes a leading occurrence of the pattern whole. -/
theorem replaceAllNe_cons_self (p : Char) (ps rep b : List Char) :
    replaceAllNe p ps rep (p :: (ps ++ b)) = rep ++ replaceAllNe p ps rep b := by
  have hpre : (p :: ps).isPrefixOf (p :: (ps ++ b)) = true := by
    rw [isPrefixOfIff]
    exact ⟨b, by simp⟩
  rw [replaceAllNe, if_pos hpre, List.drop_left]

/-- Straddle-freedom against the empty remainder always holds. -/
theorem noStraddle_nil (a p : List Char) : NoStraddle a [] p := by
  intro k hk _ h
  have h2 := List.prefix_nil.mp h.2
  have h3 := List.drop_eq_nil_iff.mp h2
  omega

/-- Straddle-freedom is inherited by the tail of the left part. -/
theorem noStraddle_of_cons {c : Char} {a b p : List Char}
    (h : NoStraddle (c :: a) b p) : NoStraddle a b p := by
  intro k hk hk0 hkp
  exact h k hk hk0 ⟨hkp.1.trans (List.suffix_cons c a), hkp.2⟩

/-- A replacement pass walks over a left part that neither contains the
pattern nor lets it straddle into the remainder. -/
theorem replaceAllNe_append_left (p : Char) (ps rep b : List Char) :
    ∀ a : List Char, ¬ (p :: ps) <:+: a → NoStraddle a b (p :: ps) →
      replaceAllNe p ps rep (a ++ b) = a ++ replaceAllNe p ps rep b := by
  intro a
  induction a with
  | nil => intro _ _; simp
  | cons c a2 ih =>
    intro ha hstr
    have hpre : (p :: ps).isPrefixOf (c :: (a2 ++ b)) = false := by
      by_contra hcon
      have hp : (p :: ps) <+: ((c :: a2) ++ b) := by
        have hT : (p :: ps).isPrefixOf (c :: (a2 ++ b)) = true := by
          cases h : (p :: ps).isPrefixOf (c :: (a2 ++ b)) with
          | true => rfl
          | false => exact absurd h hcon
        have := isPrefixOfIff.mp hT
        simpa using this
      by_cases hlen : (p :: ps).length ≤ (c :: a2).length
      · have htake : (p :: ps) = ((c :: a2) ++ b).take (p :: ps).length :=
          List.prefix_iff_eq_take.mp hp
        rw [List.take_append_eq_append_take,
          Nat.sub_eq_zero_of_le hlen, List.take_zero, List.append_nil] at htake
        have : (p :: ps) <+: (c :: a2) := htake ▸ List.take_prefix _ _
        exact ha this.isInfix
      · push_neg at hlen
        have hk0 : 0 < (c :: a2).length := by simp
        have htake : (p :: ps) = (c :: a2) ++ b.take ((p :: ps).length - (c :: a2).length) := by
          have := List.prefix_iff_eq_take.mp hp
          rwa [List.take_append_eq_append_take,
            List.take_of_length_le (Nat.le_of_lt hlen)] at this
        refine hstr (c :: a2).length hlen hk0 ⟨?_, ?_⟩
        · rw [htake, List.take_left]
        · rw [htake, List.drop_left]
          exact List.take_prefix _ _
    rw [List.cons_append, replaceAllNe, if_neg (by simp [hpre]),
      ih (fun hinf => ha (List.infix_cons hinf)) (noStraddle_of_cons hstr)]
    exact (List.cons_append c a2 _).symm

/-- A text without any occurrence of the pattern is left unchanged. -/
theorem replaceAllNe_of_not_infix (p : Char) (ps rep : List Char) (a : List Char)
    (ha : ¬ (p :: ps) <:+: a) : replaceAllNe p ps rep a = a := by
  have := replaceAllNe_append_left p ps rep [] a ha (noStraddle_nil a (p :: ps))
  simpa [replaceAllNe_nil] using this

/-- A single exact pass turns every marked segment into the replacement and
leaves everything else intact. -/
theorem replaceAllNe_pass (p : Char) (ps rep : List Char) :
    ∀ segs : List (List Char × Bool), PassOk (p :: ps) segs →
      replaceAllNe p ps rep (renderMarked segs) = renderOut rep segs := by
  intro segs
  induction segs with
  | nil => intro _; simp [renderMarked, renderOut, replaceAllNe_nil]
  | cons s rest ih =>
    intro h
    obtain ⟨h1, h2, h3⟩ := h
    have hrm : renderMarked (s :: rest) = s.1 ++ renderMarked rest := rfl
    have hro : renderOut rep (s :: rest) =
        (if s.2 then rep else s.1) ++ renderOut rep rest := rfl
    cases hs2 : s.2 with
    | true =>
      have hs1 : s.1 = p :: ps := h1 hs2
      rw [hrm, hro, hs1, if_pos hs2, List.cons_append, replaceAllNe_cons_self,
        ih h3]
    | false =>
      obtain ⟨hni, hstr⟩ := h2 hs2
      rw [hrm, hro, if_neg (by simp [hs2]),
        replaceAllNe_append_left p ps rep (renderMarked rest) s.1 hni hstr, ih h3]

/-- Unfold one pass of `applyPairs`. -/
theorem applyPairs_cons (q : List Char × List Char)
    (prs : List (List Char × List Char)) (x : List Char) :
    applyPairs (q :: prs) x = applyPairs prs (replaceAll q.1 q.2 x) := rfl

/-- Rendering a mapped marked segmentation is folding the content map. -/
theorem renderMarked_map (f : Seg → List Char) (g : Seg → Bool) :
    ∀ P : List Seg, renderMarked (P.map (fun s => (f s, g s))) =
      P.foldr (fun s acc => f s ++ acc) [] := by
  intro P
  induction P with
  | nil => rfl
  | cons s rest ih => simp [renderMarked] at ih ⊢; rw [ih]

/-- The pass output of a mapped marked segmentation, per segment. -/
theorem renderOut_map (rep : List Char) (f : Seg → List Char) (g : Seg → Bool) :
    ∀ P : List Seg, renderOut rep (P.map (fun s => (f s, g s))) =
      P.foldr (fun s acc => (if g s then rep else f s) ++ acc) [] := by
  intro P
  induction P with
  | nil => rfl
  | cons s rest ih => simp [renderOut] at ih ⊢; rw [ih]

/-- Fold congruence for segment renderings. -/
theorem foldr_append_congr (f g : Seg → List Char) :
    ∀ P : List Seg, (∀ s ∈ P, f s = g s) →
      P.foldr (fun s acc => f s ++ acc) [] = P.foldr (fun s acc => g s ++ acc) [] := by
  intro P
  induction P with
  | nil => intro _; rfl
  | cons s rest ih =>
    intro h
    simp only [List.foldr_cons]
    rw [h s (List.mem_cons_self s rest), ih (fun t ht => h t (List.mem_cons_of_mem s ht))]

/-- What one pass does to the staged rendering of a parse: pass `i` moves the
text from its before-`i` state to its before-`i+1` state. -/
theorem renderAt_step (Q : List (List Char × List Char)) (P : List Seg)
    (i : Nat) (hi : i < Q.length) (hne : ∀ q ∈ Q, q.1 ≠ [])
    (hseg : ∀ s ∈ P, segOk Q s)
    (hpass : PassOk (patAt Q i) (P.map (fun s => (segAt i s, s.k == some i)))) :
    replaceAll (Q.get ⟨i, hi⟩).1 (Q.get ⟨i, hi⟩).2 (renderAt i P) = renderAt (i + 1) P := by
  have hq : Q.get? i = some (Q.get ⟨i, hi⟩) := by
    simp [List.get?_eq_getElem?, List.getElem?_eq_getElem hi, List.get_eq_getElem]
  have hpat : patAt Q i = (Q.get ⟨i, hi⟩).1 := by
    unfold patAt
    rw [hq]
    rfl
  have hmem : Q.get ⟨i, hi⟩ ∈ Q := List.get_mem Q i hi
  have hex : ∃ p ps, (Q.get ⟨i, hi⟩).1 = p :: ps := by
    cases h : (Q.get ⟨i, hi⟩).1 with
    | nil => exact absurd h (hne _ hmem)
    | cons p ps => exact ⟨p, ps, rfl⟩
  obtain ⟨p, ps, hps⟩ := hex
  have hrm : renderMarked (P.map (fun s => (segAt i s, s.k == some i))) = renderAt i P :=
    renderMarked_map _ _ P
  have hro : renderOut (Q.get ⟨i, hi⟩).2 (P.map (fun s => (segAt i s, s.k == some i))) =
      renderAt (i + 1) P := by
    rw [renderOut_map]
    apply foldr_append_congr
    intro s hs
    have hsok := hseg s hs
    cases hk : s.k with
    | none =>
      have hbeq : (s.k == some i) = false := by simp [hk]
      simp [hbeq, segAt, hk]
    | some j =>
      by_cases hj : j = i
      · subst hj
        have hsome : Q.get? j = some (s.u, s.v) := by simpa [segOk, hk] using hsok
        rw [hq] at hsome
        have heq : Q[j] = (s.u, s.v) := by
          have h2 := Option.some.inj hsome
          simpa [List.get_eq_getElem] using h2
        have hb2 : (some j == some j) = true := by simp
        rw [hb2]
        simp [segAt, hk, heq, List.get_eq_getElem, Nat.lt_succ_self]
      · have hb2 : (some j == some i) = false := by simp [hj]
        rw [hb2]
        have hlt : j < i + 1 ↔ j < i := by omega
        simp [segAt, hk, hlt]
  rw [hps] at hpat
  rw [show replaceAll (Q.get ⟨i, hi⟩).1 (Q.get ⟨i, hi⟩).2 (renderAt i P) =
      replaceAllNe p ps (Q.get ⟨i, hi⟩).2 (renderAt i P) by rw [hps]; rfl]
  rw [← hrm, replaceAllNe_pass p ps _ _ (by rw [← hpat]; exact hpass), hro]

/-- Running all passes of a parse transforms the initial rendering into the
final one. -/
theorem applyPairs_renderAt (Q : List (List Char × List Char)) (P : List Seg)
    (hne : ∀ q ∈ Q, q.1 ≠ []) (hP : ParseOk Q P) :
    ∀ n i, i + n = Q.length →
      applyPairs (Q.drop i) (renderAt i P) = renderAt Q.length P := by
  intro n
  induction n with
  | zero =>
    intro i hi
    simp only [Nat.add_zero] at hi
    subst hi
    rw [List.drop_length]
    rfl
  | succ m ih =>
    intro i hi
    have hlt : i < Q.length := by omega
    rw [List.drop_eq_getElem_cons hlt]
    rw [show Q[i] = Q.get ⟨i, hlt⟩ from rfl, applyPairs_cons,
      renderAt_step Q P i hlt hne hP.1 (hP.2 i hlt)]
    exact ih (i + 1) (by omega)

/-- Full run of a parse: from its source rendering to its target rendering. -/
theorem applyPairs_parse (Q : List (List Char × List Char)) (P : List Seg)
    (hne : ∀ q ∈ Q, q.1 ≠ []) (hP : ParseOk Q P) :
    applyPairs Q (renderAt 0 P) = renderAt Q.length P := by
  have := applyPairs_renderAt Q P hne hP Q.length 0 (by omega)
  simpa using this

/-! ### Lemmas about the rule ordering -/

theorem mem_insertDescBy {α : Type} (key : α → Nat) (x z : α) :
    ∀ l : List α, z ∈ insertDescBy key x l ↔ z = x ∨ z ∈ l := by
  intro l
  induction l with
  | nil => simp [insertDescBy]
  | cons y ys ih =>
    by_cases h : key y ≤ key x
    · simp [insertDescBy, h]
    · simp [insertDescBy, h, ih]
      tauto

/-- Inserting preserves descending sortedness. -/
theorem insertDescBy_pairwise {α : Type} (key : α → Nat) (x : α) :
    ∀ l : List α, l.Pairwise (fun a b => key b ≤ key a) →
      (insertDescBy key x l).Pairwise (fun a b => key b ≤ key a) := by
  intro l
  induction l with
  | nil => intro _; simp [insertDescBy]
  | cons y ys ih =>
    intro h
    rw [List.pairwise_cons] at h
    by_cases hk : key y ≤ key x
    · rw [insertDescBy, if_pos hk, List.pairwise_cons]
      refine ⟨?_, List.pairwise_cons.mpr h⟩
      intro z hz
      rcases List.mem_cons.mp hz with h2 | h2
      · exact h2 ▸ hk
      · exact Nat.le_trans (h.1 z h2) hk
    · rw [insertDescBy, if_neg hk, List.pairwise_cons]
      refine ⟨?_, ih h.2⟩
      intro z hz
      rcases (mem_insertDescBy key x z ys).mp hz with h2 | h2
      · exact h2 ▸ Nat.le_of_lt (Nat.lt_of_not_le hk)
      · exact h.1 z h2

/-- The stable sort is sorted descending by key. -/
theorem sortDescBy_pairwise {α : Type} (key : α → Nat) :
    ∀ l : List α, (sortDescBy key l).Pairwise (fun a b => key b ≤ key a) := by
  intro l
  induction l with
  | nil => simp [sortDescBy]
  | cons x xs ih => exact insertDescBy_pairwise key x _ ih

/-- Stability of insertion: elements satisfying a predicate that pins the key
to a single value keep their relative positions. -/
theorem filter_insertDescBy {α : Type} (key : α → Nat) (φ : α → Bool) (L : Nat)
    (hφ : ∀ a, φ a = true → key a = L) (x : α) :
    ∀ l : List α, (insertDescBy key x l).filter φ =
      if φ x then x :: l.filter φ else l.filter φ := by
  intro l
  induction l with
  | nil =>
    rw [insertDescBy]
    cases h : φ x with
    | true => simp [List.filter, h]
    | false => simp [List.filter, h]
  | cons y ys ih =>
    by_cases hk : key y ≤ key x
    · rw [insertDescBy, if_pos hk]
      cases h : φ x with
      | true => simp [List.filter_cons, h]
      | false => simp [List.filter_cons, h]
    · rw [insertDescBy, if_neg hk]
      cases hy : φ y with
      | true =>
        cases hx : φ x with
        | true =>
          exact absurd (hφ x hx ▸ hφ y hy ▸ Nat.le_refl L) hk
        | false =>
          simp only [List.filter_cons, hy, if_neg, ih, hx]
          simp
      | false =>
        simp only [List.filter_cons, hy, ih]
        cases hx : φ x with
        | true => simp
        | false => simp

/-- The stable sort does not reorder elements sharing one key value. -/
theorem filter_sortDescBy {α : Type} (key : α → Nat) (φ : α → Bool) (L : Nat)
    (hφ : ∀ a, φ a = true → key a = L) :
    ∀ l : List α, (sortDescBy key l).filter φ = l.filter φ := by
  intro l
  induction l with
  | nil => rfl
  | cons x xs ih =>
    rw [sortDescBy, filter_insertDescBy key φ L hφ x _, ih, List.filter_cons]

/-- The filter-map of the loop body factors through `keepB` and `selRule`. -/
theorem filterMap_keepRule (d : String) :
    ∀ l : List RewriteRule,
      l.filterMap (keepRule d) = (l.filter (keepB d)).map (selRule d) := by
  intro l
  induction l with
  | nil => rfl
  | cons r rs ih =>
    by_cases h : srcKey d r = [] ∨ tgtKey d r = [] ∨ srcKey d r = tgtKey d r
    · have hk : keepRule d r = none := by simp [keepRule, h]
      have hb : keepB d r = false := by
        rcases h with h | h | h <;> simp [keepB, h]
      rw [List.filterMap_cons, hk, List.filter_cons, hb]
      simpa using ih
    · have hk : keepRule d r = some (selRule d r) := by
        simp [keepRule, h, selRule]
      have hb : keepB d r = true := by
        push_neg at h
        simp [keepB, h.1, h.2.1, h.2.2]
      rw [List.filterMap_cons, hk, List.filter_cons, hb]
      simpa using ih

/-- On a valid direction, `iter_rules` succeeds with the sorted, filtered
pair list. -/
theorem iter_rules_ok (rules : List RewriteRule) (d : String)
    (hd : d = "server_to_mac" ∨ d = "mac_to_server") :
    iter_rules rules d =
      .ok ((sortDescBy (fun r => (srcKey d r).length) rules).filterMap (keepRule d)) := by
  rw [iter_rules, if_pos hd]

/-- Every pair `iter_rules` yields has a non-empty source. -/
theorem iter_rules_sources_ne (rules : List RewriteRule) (d : String)
    (Q : List (List Char × List Char)) (h : iter_rules rules d = .ok Q) :
    ∀ q ∈ Q, q.1 ≠ [] := by
  intro q hq
  unfold iter_rules at h
  by_cases hd : d = "server_to_mac" ∨ d = "mac_to_server"
  · rw [if_pos hd] at h
    have hQ := Except.ok.inj h
    rw [← hQ] at hq
    obtain ⟨r, _, hr⟩ := List.mem_filterMap.mp hq
    unfold keepRule at hr
    by_cases hc : srcKey d r = [] ∨ tgtKey d r = [] ∨ srcKey d r = tgtKey d r
    · rw [if_pos hc] at hr
      exact absurd hr (by simp)
    · rw [if_neg hc] at hr
      have := Option.some.inj hr
      push_neg at hc
      rw [← this]
      exact hc.1
  · rw [if_neg hd] at h
    exact absurd h (by simp)

/-- C1: for a rule set and a valid direction, `iter_rules` yields rules whose
source-pattern lengths are non-increasing; a rule whose pattern is a strict
substring of another rule's pattern comes after it; and rules with
equal-length patterns keep their original configuration order. -/
theorem iter_rules_longest_first (rules : List RewriteRule) (d : String)
    (hd : d = "server_to_mac" ∨ d = "mac_to_server") :
    ∃ out, iter_rules rules d = .ok out ∧
      out.Pairwise (fun a b => b.1.length ≤ a.1.length) ∧
      (∀ i j (hi : i < out.length) (hj : j < out.length),
          (out.get ⟨i, hi⟩).1 <:+: (out.get ⟨j, hj⟩).1 →
          (out.get ⟨i, hi⟩).1 ≠ (out.get ⟨j, hj⟩).1 → j < i) ∧
      (∀ L, out.filter (fun q => q.1.length == L) =
        (rules.filterMap (keepRule d)).filter (fun q => q.1.length == L)) := by
  have hpw : ((sortDescBy (fun r => (srcKey d r).length) rules).filterMap
      (keepRule d)).Pairwise (fun a b => b.1.length ≤ a.1.length) := by
    rw [filterMap_keepRule]
    exact List.pairwise_map.mpr ((sortDescBy_pairwise _ rules).filter _)
  refine ⟨_, iter_rules_ok rules d hd, hpw, ?_, ?_⟩
  · intro i j hi hj hinf hne2
    by_contra hji
    have hij : i ≤ j := by omega
    have hlen : (List.get _ ⟨i, hi⟩).1.length < (List.get _ ⟨j, hj⟩).1.length := by
      refine Nat.lt_of_le_of_ne hinf.length_le (fun he => hne2 (hinf.eq_of_length he))
    rcases Nat.lt_or_ge i j with hlt | hge
    · have := List.pairwise_iff_get.mp hpw ⟨i, hi⟩ ⟨j, hj⟩ hlt
      omega
    · have heq : i = j := by omega
      subst heq
      exact hne2 rfl
  · intro L
    rw [filterMap_keepRule, filterMap_keepRule, List.filter_map, List.filter_map]
    congr 1
    rw [List.filter_filter, List.filter_filter]
    exact filter_sortDescBy (fun r => (srcKey d r).length)
      (fun a => ((fun q => q.1.length == L) ∘ selRule d) a && keepB d a) L
      (fun a ha => by
        have h1 := (Bool.and_eq_true _ _).mp ha
        have h2 : ((selRule d a).1.length == L) = true := h1.1
        have h3 : (selRule d a).1.length = L := beq_iff_eq.mp h2
        simpa [selRule] using h3)
      rules

/-- Witness for C1 at the test suite's rule set, listed shortest-first. -/
theorem iter_rules_longest_first_witness :
    ∃ out, iter_rules exRules "server_to_mac" = .ok out ∧
      out.Pairwise (fun a b => b.1.length ≤ a.1.length) ∧
      (∀ i j (hi : i < out.length) (hj : j < out.length),
          (out.get ⟨i, hi⟩).1 <:+: (out.get ⟨j, hj⟩).1 →
          (out.get ⟨i, hi⟩).1 ≠ (out.get ⟨j, hj⟩).1 → j < i) ∧
      (∀ L, out.filter (fun q => q.1.length == L) =
        (exRules.filterMap (keepRule "server_to_mac")).filter
          (fun q => q.1.length == L)) :=
  iter_rules_longest_first exRules "server_to_mac" (Or.inl rfl)

/-- C2: round-trip law.  For a rule set and a text admitting collision-free
parses for both directed pass sequences (the formal reading of "no
cross-rule collisions" and "text not previously rewritten"), applying
`apply_rewrites` in one direction and then in the opposite direction
reproduces the original text exactly, in either order of directions. -/
theorem apply_rewrites_round_trip (rules : List RewriteRule) (d d2 : String)
    (x : List Char) (Q1 Q2 : List (List Char × List Char)) (P1 P2 : List Seg)
    (_hd : (d = "server_to_mac" ∧ d2 = "mac_to_server") ∨
      (d = "mac_to_server" ∧ d2 = "server_to_mac"))
    (hQ1 : iter_rules rules d = .ok Q1) (hQ2 : iter_rules rules d2 = .ok Q2)
    (hP1 : ParseOk Q1 P1) (hP2 : ParseOk Q2 P2)
    (hx : renderAt 0 P1 = x)
    (hmid : renderAt Q1.length P1 = renderAt 0 P2)
    (hend : renderAt Q2.length P2 = x) :
    (apply_rewrites x rules d).bind (fun y => apply_rewrites y rules d2) = .ok x := by
  have h1 : apply_rewrites x rules d = .ok (applyPairs Q1 x) := by
    rw [apply_rewrites, hQ1]
    rfl
  have hfwd : applyPairs Q1 x = renderAt Q1.length P1 := by
    rw [← hx]
    exact applyPairs_parse Q1 P1 (iter_rules_sources_ne rules d Q1 hQ1) hP1
  have h2 : apply_rewrites (applyPairs Q1 x) rules d2 =
      .ok (applyPairs Q2 (applyPairs Q1 x)) := by
    rw [apply_rewrites, hQ2]
    rfl
  have hbwd : applyPairs Q2 (applyPairs Q1 x) = x := by
    rw [hfwd, hmid, ← hend]
    exact applyPairs_parse Q2 P2 (iter_rules_sources_ne rules d2 Q2 hQ2) hP2
  rw [h1]
  show apply_rewrites (applyPairs Q1 x) rules d2 = .ok x
  rw [h2, hbwd]

/-- Witness for C2: the test suite's rule set, including its nested patterns,
round-trips the sample line in both pass sequences. -/
theorem apply_rewrites_round_trip_witness :
    (apply_rewrites exText exRules "server_to_mac").bind
      (fun y => apply_rewrites y exRules "mac_to_server") = .ok exText :=
  apply_rewrites_round_trip exRules "server_to_mac" "mac_to_server" exText
    exQfwd exQbwd exPfwd exPbwd (Or.inl ⟨rfl, rfl⟩) rfl rfl
    (by decide) (by decide) (by decide) (by decide) (by decide)

/-- An ordinary character passes through the template decoder. -/
theorem decodeTemplate_cons_ne (c : Char) (cs : List Char) (hc : ¬ c = '\\') :
    decodeTemplate (c :: cs) = (decodeTemplate cs).map (fun t2 => c :: t2) := by
  cases cs with
  | nil => simp [decodeTemplate, hc]
  | cons e rest => simp [decodeTemplate, hc]

/-- A replacement template without backslashes passes through unchanged. -/
theorem decodeTemplate_no_backslash :
    ∀ y : List Char, '\\' ∉ y → decodeTemplate y = .ok y := by
  intro y
  induction y with
  | nil => intro _; rfl
  | cons c cs ih =>
    intro h
    have hc : ¬ c = '\\' := fun he => h (he ▸ List.mem_cons_self c cs)
    have hcs : '\\' ∉ cs := fun h2 => h (List.mem_cons_of_mem c h2)
    rw [decodeTemplate_cons_ne c cs hc, ih hcs]
    rfl

/-- `iter_rules` on a single well-formed rule yields exactly its pair. -/
theorem iter_rules_single (s t : List Char) (hs : s ≠ []) (ht : t ≠ [])
    (hne : s ≠ t) :
    iter_rules [⟨some s, some t⟩] "server_to_mac" = .ok [(s, t)] := by
  rw [iter_rules_ok _ _ (Or.inl rfl)]
  simp [sortDescBy, insertDescBy, keepRule, srcKey, tgtKey, hs, ht, hne]

/-- C4 (amended): `apply_rewrites` replaces literally — a pattern absent from
the text (even one full of regex metacharacters) changes nothing, and an
occurrence is replaced by the replacement verbatim; the legacy
`transform_jsonl_content` also matches its pattern literally, and inserts
the replacement verbatim when the replacement contains no backslash. -/
theorem rewrite_literal_replacement (s t b x w y : List Char)
    (hs : s ≠ []) (ht : t ≠ []) (hne : s ≠ t)
    (hx : ¬ s <:+: x) (hy : '\\' ∉ y) :
    apply_rewrites x [⟨some s, some t⟩] "server_to_mac" = .ok x ∧
    apply_rewrites (s ++ b) [⟨some s, some t⟩] "server_to_mac" =
      .ok (t ++ replaceAll s t b) ∧
    transform_jsonl_content w [(s, y)] = .ok (replaceAll s y w) := by
  have hiter := iter_rules_single s t hs ht hne
  have hex : ∃ p ps, s = p :: ps := by
    cases s with
    | nil => exact absurd rfl hs
    | cons p ps => exact ⟨p, ps, rfl⟩
  obtain ⟨p, ps, hps⟩ := hex
  refine ⟨?_, ?_, ?_⟩
  · have e2 : replaceAll s t x = x := by
      rw [hps]
      exact replaceAllNe_of_not_infix p ps t x (hps ▸ hx)
    unfold apply_rewrites
    rw [hiter]
    exact congrArg Except.ok e2
  · have e3 : replaceAll s t (s ++ b) = t ++ replaceAll s t b := by
      rw [hps]
      exact replaceAllNe_cons_self p ps t b
    unfold apply_rewrites
    rw [hiter]
    exact congrArg Except.ok e3
  · have h4 : decodeTemplate y = .ok y := decodeTemplate_no_backslash y hy
    simp [transform_jsonl_content, h4, Except.map]

/-- Witness for C4 (amended part) at patterns made of regex metacharacters. -/
theorem rewrite_literal_replacement_witness :
    apply_rewrites "ab".toList [⟨some ".*".toList, some "XY".toList⟩]
      "server_to_mac" = .ok "ab".toList ∧
    apply_rewrites (".*".toList ++ "tail".toList)
      [⟨some ".*".toList, some "XY".toList⟩] "server_to_mac" =
      .ok ("XY".toList ++ replaceAll ".*".toList "XY".toList "tail".toList) ∧
    transform_jsonl_content "cd".toList [(".*".toList, "R!".toList)] =
      .ok (replaceAll ".*".toList "R!".toList "cd".toList) :=
  rewrite_literal_replacement ".*".toList "XY".toList "tail".toList "ab".toList
    "cd".toList "R!".toList (by decide) (by decide) (by decide) (by decide)
    (by decide)

/-- C4 counterexample: the legacy transform passes the replacement to
`re.sub` unescaped, so a doubled backslash in the replacement collapses to a
single one instead of being inserted verbatim. -/
theorem transform_replacement_not_verbatim :
    transform_jsonl_content ['P'] [(['P'], ['a', '\\', '\\', 'b'])] =
      .ok ['a', '\\', 'b'] ∧
    (['a', '\\', 'b'] : List Char) ≠ ['a', '\\', '\\', 'b'] := by
  constructor
  · have h1 : decodeTemplate ['a', '\\', '\\', 'b'] = .ok ['a', '\\', 'b'] := rfl
    have h2 : replaceAll ['P'] ['a', '\\', 'b'] ['P'] = ['a', '\\', 'b'] := by
      have h3 := replaceAllNe_cons_self 'P' [] ['a', '\\', 'b'] []
      simpa [replaceAll, replaceAllNe_nil] using h3
    simp [transform_jsonl_content, h1, h2, Except.map]
  · decide

/-! ### Lemmas about configuration validation -/

/-- A present option from a failed absence test. -/
theorem isSome_of_not_isNone {α : Type} {o : Option α} (h : ¬ o.isNone = true) :
    o.isSome = true := by
  cases o with
  | none => simp at h
  | some v => rfl

/-- Success condition of one round of the project loop. -/
theorem checkProject_ok_iff (p : ProjectCfg) (seen s2 : List String) :
    checkProject p seen = .ok s2 ↔
      p.name.isSome = true ∧ p.server_dir.isSome = true ∧
      p.macos_dir.isSome = true ∧ modeOf p ∈ validModes ∧
      nameOf p ∉ seen ∧ s2 = seen ++ [nameOf p] := by
  unfold checkProject
  by_cases h1 : p.name.isNone = true
  · rw [if_pos h1]
    constructor
    · intro hcon; exact absurd hcon (by simp)
    · intro hrhs
      rw [Option.isNone_iff_eq_none] at h1
      rw [h1] at hrhs
      exact absurd hrhs.1 (by simp)
  · rw [if_neg h1]
    by_cases h2 : p.server_dir.isNone = true
    · rw [if_pos h2]
      constructor
      · intro hcon; exact absurd hcon (by simp)
      · intro hrhs
        rw [Option.isNone_iff_eq_none] at h2
        rw [h2] at hrhs
        exact absurd hrhs.2.1 (by simp)
    · rw [if_neg h2]
      by_cases h3 : p.macos_dir.isNone = true
      · rw [if_pos h3]
        constructor
        · intro hcon; exact absurd hcon (by simp)
        · intro hrhs
          rw [Option.isNone_iff_eq_none] at h3
          rw [h3] at hrhs
          exact absurd hrhs.2.2.1 (by simp)
      · rw [if_neg h3]
        by_cases h4 : modeOf p ∈ validModes
        · rw [if_neg (by simpa using h4)]
          by_cases h5 : nameOf p ∈ seen
          · rw [if_pos h5]
            constructor
            · intro hcon; exact absurd hcon (by simp)
            · intro hrhs; exact absurd h5 hrhs.2.2.2.2.1
          · rw [if_neg h5]
            constructor
            · intro hcon
              exact ⟨isSome_of_not_isNone h1, isSome_of_not_isNone h2,
                isSome_of_not_isNone h3, h4, h5, (Except.ok.inj hcon).symm⟩
            · intro hrhs
              rw [hrhs.2.2.2.2.2]
        · rw [if_pos (by simpa using h4)]
          constructor
          · intro hcon; exact absurd hcon (by simp)
          · intro hrhs; exact absurd hrhs.2.2.2.1 h4

/-- Success condition of the whole project loop, threading the seen set. -/
theorem checkProjects_ok_iff :
    ∀ (ps : List ProjectCfg) (seen : List String),
      checkProjects ps seen = .ok () ↔
        ((∀ p ∈ ps, p.name.isSome = true ∧ p.server_dir.isSome = true ∧
            p.macos_dir.isSome = true ∧ modeOf p ∈ validModes) ∧
         (ps.map nameOf).Nodup ∧ ∀ p ∈ ps, nameOf p ∉ seen) := by
  intro ps
  induction ps with
  | nil => intro seen; simp [checkProjects]
  | cons p ps ih =>
    intro seen
    constructor
    · intro hc
      cases h : checkProject p seen with
      | error e =>
        rw [checkProjects, h] at hc
        exact absurd hc (by simp)
      | ok seen2 =>
        rw [checkProjects, h] at hc
        obtain ⟨hn, hs, hm, hmode, hnot, hseen2⟩ := (checkProject_ok_iff p seen seen2).mp h
        obtain ⟨hall, hnodup, hdisj⟩ := (ih seen2).mp hc
        subst hseen2
        refine ⟨?_, ?_, ?_⟩
        · intro q hq
          rcases List.mem_cons.mp hq with h2 | h2
          · subst h2; exact ⟨hn, hs, hm, hmode⟩
          · exact hall q h2
        · rw [List.map_cons, List.nodup_cons]
          refine ⟨?_, hnodup⟩
          intro hmem
          obtain ⟨q, hq, hqe⟩ := List.mem_map.mp hmem
          have := hdisj q hq
          rw [hqe] at this
          exact this (List.mem_append_right seen (List.mem_singleton.mpr rfl))
        · intro q hq
          rcases List.mem_cons.mp hq with h2 | h2
          · subst h2; exact hnot
          · intro hmem
            exact hdisj q h2 (List.mem_append_left _ hmem)
    · intro hc
      obtain ⟨hall, hnodup, hdisj⟩ := hc
      have hp := hall p (List.mem_cons_self p ps)
      have hok : checkProject p seen = .ok (seen ++ [nameOf p]) :=
        (checkProject_ok_iff p seen _).mpr
          ⟨hp.1, hp.2.1, hp.2.2.1, hp.2.2.2, hdisj p (List.mem_cons_self p ps), rfl⟩
      rw [checkProjects, hok]
      rw [List.map_cons, List.nodup_cons] at hnodup
      apply (ih _).mpr
      refine ⟨fun q hq => hall q (List.mem_cons_of_mem p hq), hnodup.2, ?_⟩
      intro q hq hmem
      rcases List.mem_append.mp hmem with h2 | h2
      · exact hdisj q (List.mem_cons_of_mem p hq) h2
      · have : nameOf q = nameOf p := List.mem_singleton.mp h2
        exact hnodup.1 (this ▸ List.mem_map_of_mem nameOf hq)

/-- Success condition of the rewrite-rule loop: key presence only. -/
theorem checkRules_ok_iff :
    ∀ rs : List RewriteRule,
      checkRules rs = .ok () ↔
        ∀ r ∈ rs, r.server.isSome = true ∧ r.mac.isSome = true := by
  intro rs
  induction rs with
  | nil => simp [checkRules]
  | cons r rs ih =>
    rw [checkRules]
    by_cases h : r.server.isNone = true ∨ r.mac.isNone = true
    · rw [if_pos h]
      constructor
      · intro hc; exact absurd hc (by simp)
      · intro hc
        have := hc r (List.mem_cons_self r rs)
        rcases h with h | h
        · rw [Option.isNone_iff_eq_none] at h
          rw [h] at this
          exact absurd this.1 (by simp)
        · rw [Option.isNone_iff_eq_none] at h
          rw [h] at this
          exact absurd this.2 (by simp)
    · rw [if_neg h]
      push_neg at h
      rw [ih]
      constructor
      · intro hc q hq
        rcases List.mem_cons.mp hq with h2 | h2
        · subst h2
          exact ⟨isSome_of_not_isNone h.1, isSome_of_not_isNone h.2⟩
        · exact hc q h2
      · intro hc q hq
        exact hc q (List.mem_cons_of_mem r hq)

/-- C7 (amended): `validate_config` succeeds exactly when the top-level keys
and path keys are present, the project list is present and non-empty, every
project has its required keys and a valid (defaulted) mode, project names
are pairwise distinct, and every rewrite rule has both the `server` and the
`mac` key present — presence only: a rule side that is present but empty is
accepted. -/
theorem validate_config_ok_iff (cfg : Config) :
    validate_config cfg = .ok () ↔
      (cfg.ssh_alias.isSome = true ∧ cfg.paths.isSome = true ∧
       cfg.projects.isSome = true ∧
       (cfg.paths.getD ⟨none, none⟩).macos_root.isSome = true ∧
       (cfg.paths.getD ⟨none, none⟩).server_root.isSome = true ∧
       cfg.projects.getD [] ≠ [] ∧
       (∀ p ∈ cfg.projects.getD [], p.name.isSome = true ∧
          p.server_dir.isSome = true ∧ p.macos_dir.isSome = true ∧
          modeOf p ∈ validModes) ∧
       ((cfg.projects.getD []).map nameOf).Nodup ∧
       (∀ r ∈ cfg.rewrite_rules.getD [], r.server.isSome = true ∧
          r.mac.isSome = true)) := by
  unfold validate_config
  by_cases h1 : cfg.ssh_alias.isNone = true
  · rw [if_pos h1]
    constructor
    · intro hcon; exact absurd hcon (by simp)
    · intro hrhs
      rw [Option.isNone_iff_eq_none] at h1
      rw [h1] at hrhs
      exact absurd hrhs.1 (by simp)
  · rw [if_neg h1]
    by_cases h2 : cfg.paths.isNone = true
    · rw [if_pos h2]
      constructor
      · intro hcon; exact absurd hcon (by simp)
      · intro hrhs
        rw [Option.isNone_iff_eq_none] at h2
        rw [h2] at hrhs
        exact absurd hrhs.2.1 (by simp)
    · rw [if_neg h2]
      by_cases h3 : cfg.projects.isNone = true
      · rw [if_pos h3]
        constructor
        · intro hcon; exact absurd hcon (by simp)
        · intro hrhs
          rw [Option.isNone_iff_eq_none] at h3
          rw [h3] at hrhs
          exact absurd hrhs.2.2.1 (by simp)
      · rw [if_neg h3]
        by_cases h4 : (cfg.paths.getD ⟨none, none⟩).macos_root.isNone = true
        · rw [if_pos h4]
          constructor
          · intro hcon; exact absurd hcon (by simp)
          · intro hrhs
            rw [Option.isNone_iff_eq_none] at h4
            rw [h4] at hrhs
            exact absurd hrhs.2.2.2.1 (by simp)
        · rw [if_neg h4]
          by_cases h5 : (cfg.paths.getD ⟨none, none⟩).server_root.isNone = true
          · rw [if_pos h5]
            constructor
            · intro hcon; exact absurd hcon (by simp)
            · intro hrhs
              rw [Option.isNone_iff_eq_none] at h5
              rw [h5] at hrhs
              exact absurd hrhs.2.2.2.2.1 (by simp)
          · rw [if_neg h5]
            by_cases h6 : cfg.projects.getD [] = []
            · rw [if_pos h6]
              constructor
              · intro hcon; exact absurd hcon (by simp)
              · intro hrhs; exact absurd h6 hrhs.2.2.2.2.2.1
            · rw [if_neg h6]
              cases hc : checkProjects (cfg.projects.getD []) [] with
              | error e =>
                constructor
                · intro hcon
                  simp at hcon
                · intro hrhs
                  have hok := (checkProjects_ok_iff (cfg.projects.getD []) []).mpr
                    ⟨hrhs.2.2.2.2.2.2.1, hrhs.2.2.2.2.2.2.2.1, by simp⟩
                  rw [hok] at hc
                  exact absurd hc (by simp)
              | ok u =>
                cases u
                have hck := (checkProjects_ok_iff (cfg.projects.getD []) []).mp hc
                constructor
                · intro hcon
                  exact ⟨isSome_of_not_isNone h1, isSome_of_not_isNone h2,
                    isSome_of_not_isNone h3, isSome_of_not_isNone h4,
                    isSome_of_not_isNone h5, h6, hck.1, hck.2.1,
                    (checkRules_ok_iff _).mp hcon⟩
                · intro hrhs
                  exact (checkRules_ok_iff _).mpr hrhs.2.2.2.2.2.2.2.2

/-- C7 counterexample: a configuration whose rewrite rule has an empty (but
present) `server` side is accepted by `validate_config`, which the claim
says must be rejected. -/
theorem validate_config_accepts_empty_rule_side :
    validate_config exCfgEmptySide = .ok () ∧
    exCfgEmptySide.rewrite_rules = some [⟨some [], some ['x']⟩] := by
  constructor
  · rfl
  · rfl

/-! ### Lemmas about the file walker -/

/-- Full behaviour of the walker loop: the output mirrors the input file per
file, the count is the number of decodable files, every file is read, and a
write happens exactly at a decodable file whose content changed. -/
theorem rewriteGo_spec (rules : List RewriteRule) (d : String) :
    ∀ (fs : List (Option (List Char))) (i0 : Nat) out n tr,
      rewriteGo rules d i0 fs = .ok (out, n, tr) →
      out.length = fs.length ∧
      n = (fs.filter Option.isSome).length ∧
      (∀ j, j < fs.length → FsEvent.read (i0 + j) ∈ tr) ∧
      (∀ j c, fs.get? j = some (some c) →
        ∃ t, apply_rewrites c rules d = .ok t ∧ out.get? j = some (some t) ∧
          (FsEvent.write (i0 + j) ∈ tr ↔ ¬ t = c)) ∧
      (∀ j, fs.get? j = some none → out.get? j = some none) ∧
      (∀ e ∈ tr, ∃ j, j < fs.length ∧
        (e = FsEvent.read (i0 + j) ∨ e = FsEvent.write (i0 + j))) ∧
      (∀ j, fs.get? j = some none → FsEvent.write (i0 + j) ∉ tr) := by
  intro fs
  induction fs with
  | nil =>
    intro i0 out n tr h
    rw [rewriteGo] at h
    simp at h
    obtain ⟨ho, hn, ht⟩ := h
    subst ho; subst hn; subst ht
    refine ⟨rfl, rfl, ?_, ?_, ?_, ?_, ?_⟩
    · intro j hj; simp at hj
    · intro j c hc; simp at hc
    · intro j hc; simp at hc
    · intro e he; simp at he
    · intro j _ hmem; simp at hmem
  | cons f fs ih =>
    intro i0 out n tr h
    cases f with
    | none =>
      rw [rewriteGo] at h
      cases hrec : rewriteGo rules d (i0 + 1) fs with
      | error e => rw [hrec] at h; simp [Except.map] at h
      | ok r =>
        obtain ⟨out2, n2, tr2⟩ := r
        rw [hrec] at h
        simp [Except.map] at h
        obtain ⟨ho, hn, ht⟩ := h
        subst ho; subst hn; subst ht
        obtain ⟨ih1, ih2, ih3, ih4, ih5, ih6, ih7⟩ := ih (i0 + 1) out2 n2 tr2 hrec
        refine ⟨by simpa using ih1, by simpa using ih2, ?_, ?_, ?_, ?_, ?_⟩
        · intro j hj
          cases j with
          | zero => simp
          | succ j2 =>
            have := ih3 j2 (by simpa using hj)
            have he : i0 + (j2 + 1) = i0 + 1 + j2 := by omega
            rw [he]
            exact List.mem_cons_of_mem _ this
        · intro j c hc
          cases j with
          | zero => simp at hc
          | succ j2 =>
            rw [List.get?_eq_getElem?] at hc
            simp only [List.getElem?_cons_succ] at hc
            rw [← List.get?_eq_getElem?] at hc
            obtain ⟨t, h1, h2, h3⟩ := ih4 j2 c hc
            refine ⟨t, h1, by simpa using h2, ?_⟩
            have he : i0 + (j2 + 1) = i0 + 1 + j2 := by omega
            rw [he]
            constructor
            · intro hmem
              rcases List.mem_cons.mp hmem with h4 | h4
              · exact absurd h4 (by simp)
              · exact h3.mp h4
            · intro hne
              exact List.mem_cons_of_mem _ (h3.mpr hne)
        · intro j hc
          cases j with
          | zero => simp
          | succ j2 =>
            rw [List.get?_eq_getElem?] at hc
            simp only [List.getElem?_cons_succ] at hc
            rw [← List.get?_eq_getElem?] at hc
            simpa using ih5 j2 hc
        · intro e he
          rcases List.mem_cons.mp he with h4 | h4
          · exact ⟨0, by simp, Or.inl (by simpa using h4)⟩
          · obtain ⟨j, hj, hor⟩ := ih6 e h4
            refine ⟨j + 1, by simpa using Nat.succ_lt_succ hj, ?_⟩
            have he2 : i0 + (j + 1) = i0 + 1 + j := by omega
            rw [he2]
            exact hor
        · intro j hc hmem
          rcases List.mem_cons.mp hmem with h4 | h4
          · exact absurd h4 (by simp)
          · cases j with
            | zero =>
              obtain ⟨j2, _, hor⟩ := ih6 _ h4
              rcases hor with h5 | h5
              · simp at h5
              · simp at h5
                omega
            | succ j2 =>
              rw [List.get?_eq_getElem?] at hc
              simp only [List.getElem?_cons_succ] at hc
              rw [← List.get?_eq_getElem?] at hc
              have he2 : i0 + (j2 + 1) = i0 + 1 + j2 := by omega
              rw [he2] at h4
              exact ih7 j2 hc h4
    | some c =>
      rw [rewriteGo] at h
      cases happ : apply_rewrites c rules d with
      | error e => rw [happ] at h; simp at h
      | ok t =>
        rw [happ] at h
        cases hrec : rewriteGo rules d (i0 + 1) fs with
        | error e => rw [hrec] at h; simp [Except.map] at h
        | ok r =>
          obtain ⟨out2, n2, tr2⟩ := r
          rw [hrec] at h
          obtain ⟨ih1, ih2, ih3, ih4, ih5, ih6, ih7⟩ := ih (i0 + 1) out2 n2 tr2 hrec
          by_cases hch : t = c
          · simp [Except.map, hch] at h
            obtain ⟨ho, hn, ht⟩ := h
            subst ho; subst hn; subst ht
            refine ⟨by simpa using ih1, by simpa using ih2, ?_, ?_, ?_, ?_, ?_⟩
            · intro j hj
              cases j with
              | zero => simp
              | succ j2 =>
                have := ih3 j2 (by simpa using hj)
                have he : i0 + (j2 + 1) = i0 + 1 + j2 := by omega
                rw [he]
                exact List.mem_cons_of_mem _ this
            · intro j c2 hc
              cases j with
              | zero =>
                have hcc : c2 = c := by
                  rw [List.get?_eq_getElem?] at hc
                  simp at hc
                  exact hc.symm
                subst hcc
                refine ⟨t, happ, by simp [hch], ?_⟩
                simp only [Nat.add_zero]
                constructor
                · intro hmem
                  rcases List.mem_cons.mp hmem with h4 | h4
                  · exact absurd h4 (by simp)
                  · obtain ⟨j2, _, hor⟩ := ih6 _ h4
                    rcases hor with h5 | h5
                    · simp at h5
                    · simp at h5
                      omega
                · intro hne
                  exact absurd hch hne
              | succ j2 =>
                rw [List.get?_eq_getElem?] at hc
                simp only [List.getElem?_cons_succ] at hc
                rw [← List.get?_eq_getElem?] at hc
                obtain ⟨t2, h1, h2, h3⟩ := ih4 j2 c2 hc
                refine ⟨t2, h1, by simpa using h2, ?_⟩
                have he : i0 + (j2 + 1) = i0 + 1 + j2 := by omega
                rw [he]
                constructor
                · intro hmem
                  rcases List.mem_cons.mp hmem with h4 | h4
                  · exact absurd h4 (by simp)
                  · exact h3.mp h4
                · intro hne
                  exact List.mem_cons_of_mem _ (h3.mpr hne)
            · intro j hc
              cases j with
              | zero => simp at hc
              | succ j2 =>
                rw [List.get?_eq_getElem?] at hc
                simp only [List.getElem?_cons_succ] at hc
                rw [← List.get?_eq_getElem?] at hc
                simpa using ih5 j2 hc
            · intro e he
              rcases List.mem_cons.mp he with h4 | h4
              · exact ⟨0, by simp, Or.inl (by simpa using h4)⟩
              · obtain ⟨j, hj, hor⟩ := ih6 e h4
                refine ⟨j + 1, by simpa using Nat.succ_lt_succ hj, ?_⟩
                have he2 : i0 + (j + 1) = i0 + 1 + j := by omega
                rw [he2]
                exact hor
            · intro j hc hmem
              cases j with
              | zero => simp at hc
              | succ j2 =>
                rw [List.get?_eq_getElem?] at hc
                simp only [List.getElem?_cons_succ] at hc
                rw [← List.get?_eq_getElem?] at hc
                rcases List.mem_cons.mp hmem with h4 | h4
                · exact absurd h4 (by simp)
                · have he2 : i0 + (j2 + 1) = i0 + 1 + j2 := by omega
                  rw [he2] at h4
                  exact ih7 j2 hc h4
          · simp [Except.map, hch] at h
            obtain ⟨ho, hn, ht⟩ := h
            subst ho; subst hn; subst ht
            refine ⟨by simpa using ih1, by simpa using ih2, ?_, ?_, ?_, ?_, ?_⟩
            · intro j hj
              cases j with
              | zero => simp
              | succ j2 =>
                have := ih3 j2 (by simpa using hj)
                have he : i0 + (j2 + 1) = i0 + 1 + j2 := by omega
                rw [he]
                exact List.mem_cons_of_mem _ (List.mem_cons_of_mem _ this)
            · intro j c2 hc
              cases j with
              | zero =>
                have hcc : c2 = c := by
                  rw [List.get?_eq_getElem?] at hc
                  simp at hc
                  exact hc.symm
                subst hcc
                refine ⟨t, happ, by simp, ?_⟩
                simp only [Nat.add_zero]
                constructor
                · intro _; exact hch
                · intro _
                  exact List.mem_cons_of_mem _ (List.mem_cons_self _ _)
              | succ j2 =>
                rw [List.get?_eq_getElem?] at hc
                simp only [List.getElem?_cons_succ] at hc
                rw [← List.get?_eq_getElem?] at hc
                obtain ⟨t2, h1, h2, h3⟩ := ih4 j2 c2 hc
                refine ⟨t2, h1, by simpa using h2, ?_⟩
                have he : i0 + (j2 + 1) = i0 + 1 + j2 := by omega
                rw [he]
                constructor
                · intro hmem
                  rcases List.mem_cons.mp hmem with h4 | h4
                  · exact absurd h4 (by simp)
                  · rcases List.mem_cons.mp h4 with h5 | h5
                    · exact absurd h5 (by simp; omega)
                    · exact h3.mp h5
                · intro hne
                  exact List.mem_cons_of_mem _ (List.mem_cons_of_mem _ (h3.mpr hne))
            · intro j hc
              cases j with
              | zero => simp at hc
              | succ j2 =>
                rw [List.get?_eq_getElem?] at hc
                simp only [List.getElem?_cons_succ] at hc
                rw [← List.get?_eq_getElem?] at hc
                simpa using ih5 j2 hc
            · intro e he
              rcases List.mem_cons.mp he with h4 | h4
              · exact ⟨0, by simp, Or.inl (by simpa using h4)⟩
              · rcases List.mem_cons.mp h4 with h5 | h5
                · exact ⟨0, by simp, Or.inr (by simpa using h5)⟩
                · obtain ⟨j, hj, hor⟩ := ih6 e h5
                  refine ⟨j + 1, by simpa using Nat.succ_lt_succ hj, ?_⟩
                  have he2 : i0 + (j + 1) = i0 + 1 + j := by omega
                  rw [he2]
                  exact hor
            · intro j hc hmem
              cases j with
              | zero => simp at hc
              | succ j2 =>
                rw [List.get?_eq_getElem?] at hc
                simp only [List.getElem?_cons_succ] at hc
                rw [← List.get?_eq_getElem?] at hc
                rcases List.mem_cons.mp hmem with h4 | h4
                · exact absurd h4 (by simp)
                · rcases List.mem_cons.mp h4 with h5 | h5
                  · exact absurd h5 (by simp)
                  · have he2 : i0 + (j2 + 1) = i0 + 1 + j2 := by omega
                    rw [he2] at h5
                    exact ih7 j2 hc h5

/-- `apply_rewrites` always succeeds on a valid direction. -/
theorem apply_rewrites_ok (c : List Char) (rules : List RewriteRule) (d : String)
    (hd : d = "server_to_mac" ∨ d = "mac_to_server") :
    apply_rewrites c rules d = .ok (applyPairs
      ((sortDescBy (fun r => (srcKey d r).length) rules).filterMap (keepRule d)) c) := by
  unfold apply_rewrites
  rw [iter_rules_ok rules d hd]
  rfl

/-- The walker loop always succeeds on a valid direction. -/
theorem rewriteGo_ok (rules : List RewriteRule) (d : String)
    (hd : d = "server_to_mac" ∨ d = "mac_to_server") :
    ∀ (fs : List (Option (List Char))) (i0 : Nat),
      ∃ res, rewriteGo rules d i0 fs = .ok res := by
  intro fs
  induction fs with
  | nil => intro i0; exact ⟨([], 0, []), rfl⟩
  | cons f fs ih =>
    intro i0
    obtain ⟨res2, hres⟩ := ih (i0 + 1)
    cases h2 : rewriteGo rules d i0 (f :: fs) with
    | ok r => exact ⟨r, rfl⟩
    | error e =>
      exfalso
      cases f with
      | none =>
        rw [rewriteGo, hres] at h2
        simp [Except.map] at h2
      | some c =>
        rw [rewriteGo, apply_rewrites_ok c rules d hd, hres] at h2
        simp [Except.map] at h2

/-- C3 (amended): on a valid direction and a non-empty rule list, the walker
never aborts — it reads every one of the N + M files — but undecodable files
are skipped without being counted, so the returned count is N, the number of
decodable files; and a write event happens only at a decodable file, so at
most the N decodable files are ever written back. -/
theorem rewrite_walk_visits_all (files : List (Option (List Char)))
    (rules : List RewriteRule) (d : String)
    (hd : d = "server_to_mac" ∨ d = "mac_to_server") (hr : rules ≠ []) :
    ∃ out n tr, rewrite_jsonl_files files rules d = .ok (out, n, tr) ∧
      n = (files.filter Option.isSome).length ∧
      out.length = files.length ∧
      (∀ j, j < files.length → FsEvent.read j ∈ tr) ∧
      (∀ j, FsEvent.write j ∈ tr → ∃ c, files.get? j = some (some c)) := by
  obtain ⟨⟨out, n, tr⟩, hres⟩ := rewriteGo_ok rules d hd files 0
  have hcall : rewrite_jsonl_files files rules d = .ok (out, n, tr) := by
    rw [rewrite_jsonl_files, if_neg (by simpa using hr)]
    exact hres
  obtain ⟨s1, s2, s3, _, _, s6, s7⟩ := rewriteGo_spec rules d files 0 out n tr hres
  refine ⟨out, n, tr, hcall, s2, s1, fun j hj => by simpa using s3 j hj, ?_⟩
  intro j hw
  obtain ⟨j2, hj2, hor⟩ := s6 _ hw
  rcases hor with h5 | h5
  · simp at h5
  · have hjj : j = j2 := by simpa using h5
    subst hjj
    cases hf : files.get? j with
    | none =>
      rw [List.get?_eq_getElem?, List.getElem?_eq_none_iff] at hf
      omega
    | some f =>
      cases f with
      | none => exact absurd (by simpa using hw) (s7 j hf)
      | some c => exact ⟨c, rfl⟩

/-- Witness for C3 (amended) at one decodable and one undecodable file. -/
theorem rewrite_walk_visits_all_witness :
    ∃ out n tr, rewrite_jsonl_files [some ['a'], none]
        [⟨some ['x'], some ['y']⟩] "server_to_mac" = .ok (out, n, tr) ∧
      n = ([some ['a'], none].filter Option.isSome).length ∧
      out.length = [some ['a'], none].length ∧
      (∀ j, j < [some ['a'], none].length → FsEvent.read j ∈ tr) ∧
      (∀ j, FsEvent.write j ∈ tr →
        ∃ c, [some ['a'], none].get? j = some (some c)) :=
  rewrite_walk_visits_all [some ['a'], none] [⟨some ['x'], some ['y']⟩]
    "server_to_mac" (Or.inl rfl) (by decide)

/-- Concrete run of the walker on one decodable (unchanged) and one
undecodable file: the count is 1, both files are read, none is written. -/
theorem exWalkEval :
    rewrite_jsonl_files [some ['a'], none] [⟨some ['x'], some ['y']⟩]
      "server_to_mac" = .ok ([some ['a'], none], 1, [.read 0, .read 1]) := by
  have happ : apply_rewrites ['a'] [⟨some ['x'], some ['y']⟩] "server_to_mac" =
      .ok ['a'] := by
    unfold apply_rewrites
    rw [iter_rules_single ['x'] ['y'] (by decide) (by decide) (by decide)]
    have hrep : replaceAll ['x'] ['y'] ['a'] = ['a'] := by
      have h2 := replaceAllNe_of_not_infix 'x' [] ['y'] ['a'] (by decide)
      simpa [replaceAll] using h2
    simp [applyPairs, hrep, Except.map]
  rw [rewrite_jsonl_files, if_neg (by simp)]
  rw [rewriteGo, happ]
  rw [rewriteGo]
  rw [show rewriteGo [⟨some ['x'], some ['y']⟩] "server_to_mac" 2 [] = .ok ([], 0, []) from rfl]
  simp [Except.map]

/-- C3 counterexample: with one decodable and one undecodable file the
reported count is 1, not the claimed N + M = 2. -/
theorem rewrite_walk_count_misses_undecodable :
    rewrite_jsonl_files [some ['a'], none] [⟨some ['x'], some ['y']⟩]
      "server_to_mac" = .ok ([some ['a'], none], 1, [.read 0, .read 1]) ∧
    (1 : Nat) ≠ 1 + 1 := by
  exact ⟨exWalkEval, by decide⟩

/-- C8: a decodable file whose rewrite leaves the content unchanged keeps its
content in the output and is never written; a write event happens only at a
decodable file whose rewritten content differs from the original. -/
theorem rewrite_keeps_unchanged_files (files : List (Option (List Char)))
    (rules : List RewriteRule) (d : String) (out : List (Option (List Char)))
    (n : Nat) (tr : List FsEvent)
    (h : rewrite_jsonl_files files rules d = .ok (out, n, tr)) :
    (∀ j c, files.get? j = some (some c) → apply_rewrites c rules d = .ok c →
      out.get? j = some (some c) ∧ FsEvent.write j ∉ tr) ∧
    (∀ j, FsEvent.write j ∈ tr → ∃ c t, files.get? j = some (some c) ∧
      apply_rewrites c rules d = .ok t ∧ t ≠ c) := by
  by_cases hr : rules.isEmpty = true
  · rw [rewrite_jsonl_files, if_pos hr] at h
    simp at h
    obtain ⟨ho, hn, ht⟩ := h
    constructor
    · intro j c hc _
      refine ⟨ho ▸ hc, ?_⟩
      rw [ht]
      simp
    · intro j hw
      rw [ht] at hw
      simp at hw
  · rw [rewrite_jsonl_files, if_neg hr] at h
    obtain ⟨s1, s2, s3, s4, s5, s6, s7⟩ := rewriteGo_spec rules d files 0 out n tr h
    constructor
    · intro j c hc happc
      obtain ⟨t, ht1, ht2, ht3⟩ := s4 j c hc
      have htc : t = c := by
        rw [happc] at ht1
        exact (Except.ok.inj ht1).symm
      subst htc
      refine ⟨ht2, ?_⟩
      intro hw
      exact ht3.mp (by simpa using hw) rfl
    · intro j hw
      obtain ⟨j2, hj2, hor⟩ := s6 _ hw
      rcases hor with h5 | h5
      · simp at h5
      · have hjj : j = j2 := by simpa using h5
        subst hjj
        cases hf : files.get? j with
        | none =>
          rw [List.get?_eq_getElem?, List.getElem?_eq_none_iff] at hf
          omega
        | some f =>
          cases f with
          | none =>
            exact absurd (by simpa using hw) (s7 j hf)
          | some c =>
            obtain ⟨t, ht1, ht2, ht3⟩ := s4 j c hf
            exact ⟨c, t, rfl, ht1, ht3.mp (by simpa using hw)⟩

/-- Witness for C8 at a file left unchanged by the rule set. -/
theorem rewrite_keeps_unchanged_files_witness :
    (∀ j c, [some ['a'], none].get? j = some (some c) →
      apply_rewrites c [⟨some ['x'], some ['y']⟩] "server_to_mac" = .ok c →
      [some ['a'], none].get? j = some (some c) ∧
        FsEvent.write j ∉ [FsEvent.read 0, FsEvent.read 1]) ∧
    (∀ j, FsEvent.write j ∈ [FsEvent.read 0, FsEvent.read 1] →
      ∃ c t, [some ['a'], none].get? j = some (some c) ∧
        apply_rewrites c [⟨some ['x'], some ['y']⟩] "server_to_mac" = .ok t ∧
        t ≠ c) :=
  rewrite_keeps_unchanged_files [some ['a'], none] [⟨some ['x'], some ['y']⟩]
    "server_to_mac" [some ['a'], none] 1 [.read 0, .read 1] exWalkEval

/-- C10: with an empty rewrite-rule list, `rewrite_jsonl_files` returns 0
immediately: every file keeps its content and the access trace is empty —
nothing is read or written. -/
theorem rewrite_jsonl_files_no_rules (files : List (Option (List Char)))
    (d : String) : rewrite_jsonl_files files [] d = .ok (files, 0, []) := rfl

/-! ### Lemmas about the orchestrator -/

/-- C5 (amended): `push_project` (the current implementation) rejects a push
on a project whose mode forbids pushing, with the pull-only error, before
any transfer command is issued: zero transfer invocations and no state
touched.  (The legacy `sync_push` behaves differently — see the
counterexample.) -/
theorem push_project_pull_only (cfg : Config) (p : ProjectCfg)
    (confirm dryRun : Bool) (env : Env)
    (h : modeOf p ≠ "push" ∧ modeOf p ≠ "both") :
    push_project cfg p confirm dryRun env =
      (.error "Project is configured as pull-only.", []) := by
  unfold push_project
  rw [if_pos (not_or.mpr h)]

/-- Witness for C5 (amended) at a project whose mode key is absent. -/
theorem push_project_pull_only_witness :
    push_project exCfg9 exProjNoMode true false exEnvYes =
      (.error "Project is configured as pull-only.", []) :=
  push_project_pull_only exCfg9 exProjNoMode true false exEnvYes
    ⟨by decide, by decide⟩

/-- C5 counterexample: the legacy `sync_push` on a read-only
(`server-to-mac`) project merely prompts; with the answer `yes` it proceeds
and issues both transfer commands instead of failing with no side effects. -/
theorem sync_push_read_only_can_transfer :
    exOldProject.sync = "server-to-mac" ∧
    sync_push exOldConfig exOldProject exEnvYes = (.ok (), [.stage, .finalize]) := by
  exact ⟨rfl, rfl⟩

/-- The pull loop of `sync_all`, for any starting accumulator: each eligible
project contributes its own outcome, independently of the others. -/
theorem pullFailures_characterization (pullO : ProjectCfg → Except String Unit) :
    ∀ (projects : List ProjectCfg) (acc : List (String × String)),
      projects.foldl
        (fun acc p =>
          if modeOf p = "pull" ∨ modeOf p = "both" then
            match pullO p with
            | .ok _ => acc
            | .error e => acc ++ [(nameOf p, e)]
          else acc)
        acc =
      acc ++ (projects.filter (fun p => decide (modeOf p = "pull" ∨ modeOf p = "both"))).filterMap
        (fun p => match pullO p with | .ok _ => none | .error e => some (nameOf p, e)) := by
  intro projects
  induction projects with
  | nil => intro acc; simp
  | cons p ps ih =>
    intro acc
    rw [List.foldl_cons, List.filter_cons]
    by_cases hel : modeOf p = "pull" ∨ modeOf p = "both"
    · rw [if_pos hel]
      cases hout : pullO p with
      | ok u =>
        rw [ih acc]
        simp [hel, hout]
      | error e =>
        rw [ih (acc ++ [(nameOf p, e)])]
        simp [hel, hout]
    · rw [if_neg hel]
      rw [ih acc]
      simp [hel]

/-- The push loop of `sync_all`, for any starting accumulator. -/
theorem pushFailures_characterization (pushO : ProjectCfg → Except String Unit) :
    ∀ (projects : List ProjectCfg) (acc : List (String × String)),
      projects.foldl
        (fun acc p =>
          if modeOf p = "both" then
            match pushO p with
            | .ok _ => acc
            | .error e => acc ++ [(nameOf p, e)]
          else acc)
        acc =
      acc ++ (projects.filter (fun p => decide (modeOf p = "both"))).filterMap
        (fun p => match pushO p with | .ok _ => none | .error e => some (nameOf p, e)) := by
  intro projects
  induction projects with
  | nil => intro acc; simp
  | cons p ps ih =>
    intro acc
    rw [List.foldl_cons, List.filter_cons]
    by_cases hel : modeOf p = "both"
    · rw [if_pos hel]
      cases hout : pushO p with
      | ok u =>
        rw [ih acc]
        simp [hel, hout]
      | error e =>
        rw [ih (acc ++ [(nameOf p, e)])]
        simp [hel, hout]
    · rw [if_neg hel]
      rw [ih acc]
      simp [hel]

/-- C6: `sync_all` attempts every eligible project independently — the
failure list is exactly the concatenation of each eligible project's own
outcome, so one project's failure never suppresses another's attempt — and
the overall operation raises if and only if at least one project failed. -/
theorem sync_all_partial_failure (cfg : Config) (includePush : Bool)
    (pullO pushO : ProjectCfg → Except String Unit) :
    (sync_all cfg includePush pullO pushO).1 =
      (pullTargets cfg).filterMap
        (fun p => match pullO p with | .ok _ => none | .error e => some (nameOf p, e)) ++
      (if includePush then
        (pushTargets cfg).filterMap
          (fun p => match pushO p with | .ok _ => none | .error e => some (nameOf p, e))
       else []) ∧
    ((∃ e, (sync_all cfg includePush pullO pushO).2 = .error e) ↔
      (sync_all cfg includePush pullO pushO).1 ≠ []) := by
  have h1 : pullFailures (cfg.projects.getD []) pullO =
      (pullTargets cfg).filterMap
        (fun p => match pullO p with | .ok _ => none | .error e => some (nameOf p, e)) := by
    have := pullFailures_characterization pullO (cfg.projects.getD []) []
    simpa [pullFailures, pullTargets] using this
  have h2 : pushFailures (cfg.projects.getD []) pushO =
      (pushTargets cfg).filterMap
        (fun p => match pushO p with | .ok _ => none | .error e => some (nameOf p, e)) := by
    have := pushFailures_characterization pushO (cfg.projects.getD []) []
    simpa [pushFailures, pushTargets] using this
  constructor
  · unfold sync_all
    cases includePush with
    | true => simp [h1, h2]
    | false => simp [h1]
  · set F := (if includePush then
        pullFailures (cfg.projects.getD []) pullO ++
          pushFailures (cfg.projects.getD []) pushO
      else pullFailures (cfg.projects.getD []) pullO) with hF
    have hpair : sync_all cfg includePush pullO pushO =
        (F, if F.isEmpty then .ok ()
            else .error "sync-all failed for one or more projects.") := rfl
    rw [hpair]
    by_cases he : F.isEmpty = true
    · rw [if_pos he]
      have hnil := List.isEmpty_iff.mp he
      constructor
      · intro hex
        obtain ⟨e, hcon⟩ := hex
        simp at hcon
      · intro hne
        exact absurd hnil (by simpa using hne)
    · rw [if_neg he]
      have hne2 : F ≠ [] := fun hnil => he (by simp [hnil])
      constructor
      · intro _
        simpa using hne2
      · intro _
        exact ⟨"sync-all failed for one or more projects.", by simp⟩

/-- C9: a project whose `mode` key is absent behaves exactly as mode `pull`
everywhere: the validation step treats it identically, `pull_project`
behaves identically, `push_project` rejects it as pull-only with zero
transfer calls, and `sync_all` (whose loops range over `pullTargets` and
`pushTargets`) pulls it but never pushes it even with `--include-push`. -/
theorem missing_mode_defaults_to_pull (cfg : Config) (p : ProjectCfg)
    (confirm dryRun : Bool) (env : Env) (seen : List String)
    (hp : p.mode = none) :
    modeOf p = "pull" ∧
    checkProject p seen = checkProject { p with mode := some "pull" } seen ∧
    pull_project cfg p env = pull_project cfg { p with mode := some "pull" } env ∧
    push_project cfg p confirm dryRun env =
      (.error "Project is configured as pull-only.", []) ∧
    (p ∈ pullTargets cfg ↔ p ∈ cfg.projects.getD []) ∧
    p ∉ pushTargets cfg := by
  have hm : modeOf p = "pull" := by rw [modeOf, hp]; rfl
  have hm2 : modeOf { p with mode := some "pull" } = "pull" := rfl
  refine ⟨hm, ?_, ?_, ?_, ?_, ?_⟩
  · unfold checkProject
    rw [hm, hm2]
    rfl
  · unfold pull_project
    rw [hm, hm2]
  · unfold push_project
    rw [hm]
    rw [if_pos (by decide)]
  · simp [pullTargets, List.mem_filter, hm]
  · simp [pushTargets, List.mem_filter, hm]

/-- Witness for C9 at a concrete configuration and project. -/
theorem missing_mode_defaults_to_pull_witness :
    modeOf exProjNoMode = "pull" ∧
    checkProject exProjNoMode [] =
      checkProject { exProjNoMode with mode := some "pull" } [] ∧
    pull_project exCfg9 exProjNoMode exEnvYes =
      pull_project exCfg9 { exProjNoMode with mode := some "pull" } exEnvYes ∧
    push_project exCfg9 exProjNoMode true false exEnvYes =
      (.error "Project is configured as pull-only.", []) ∧
    (exProjNoMode ∈ pullTargets exCfg9 ↔ exProjNoMode ∈ exCfg9.projects.getD []) ∧
    exProjNoMode ∉ pushTargets exCfg9 :=
  missing_mode_defaults_to_pull exCfg9 exProjNoMode true false exEnvYes [] rfl

end SyncModel
